import Mathlib

/-!
Verification of the `slick::ObjectPool` lock-free object pool from
`src/include/slick/object_pool.h`.

The pool is embedded as a sequential state machine.  Machine integers
(`uint64_t` cursors, `uint32_t` sizes) are modelled as `Nat` with an
explicit `% 2 ^ 64` wherever the code performs 64-bit arithmetic; the
`UINT64_MAX` sentinel of `slot::data_index` is `2 ^ 64 - 1`.  Pointers
to `T` are modelled by the inductive `Ptr`: `Ptr.pool k` is the address
`&buffer_[k]` inside the contiguous storage block (so the byte-address
ownership test `lower_bound_ <= p && p <= upper_bound_` holds exactly
when `k ≤ mask_`), `Ptr.heap h` is the `h`-th heap allocation made by
the overflow path (heap allocations are distinct from each other and
from every storage address), and `Ptr.null` is `nullptr`.  The atomic
CAS loops of `reserve` and `consume` always succeed in one attempt in
the sequential embedding; the `consume` loop is run on explicit fuel.
-/

namespace SlickPool

/-- 64-bit modulus: `uint64_t` arithmetic wraps at this value. -/
def U64MOD : Nat := 2 ^ 64

/-- `std::numeric_limits<uint64_t>::max()`, the "no published datum" sentinel
stored in `slot::data_index`. -/
def SENTINEL : Nat := 2 ^ 64 - 1

/-- Model of a `T*` pointer value handled by the pool. -/
inductive Ptr where
  | null : Ptr
  | pool (k : Nat) : Ptr
  | heap (h : Nat) : Ptr
deriving DecidableEq

/-- The mutable state of one `slick::ObjectPool<T>`:
`size_`, `mask_`, the packed producer word `reserved_` (fields `index_`
and `size_`), the consumer counter `consumed_`, and the heap arrays
`control_` (fields `data_index` and `size` per slot) and `free_objects_`. -/
structure PoolState where
  size : Nat
  mask : Nat
  pIndex : Nat
  pSize : Nat
  consumed : Nat
  dataIndex : Nat → Nat
  slotSize : Nat → Nat
  freeObjs : Nat → Ptr

/-- `ObjectPool::reserve(n)`: throws (`none`) when `n > size_`; otherwise
CAS-advances `reserved_` and, when the reservation would straddle the end of
the ring, skips to the next ring start and immediately publishes the
wrap-skip record at slot `reserved.index_ & mask_`.  Returns the reserved
absolute index together with the new state. -/
def reserve (s : PoolState) (n : Nat) : Option (Nat × PoolState) :=
  if n > s.size then none
  else
    let index0 := s.pIndex
    let idx := Nat.land index0 s.mask
    if idx + n > s.size then
      let index := (index0 + (s.size - idx)) % U64MOD
      let s1 : PoolState :=
        { s with pIndex := (index + n) % U64MOD, pSize := n }
      let slotI := Nat.land index0 s1.mask
      some (index,
        { s1 with slotSize := Function.update s1.slotSize slotI n,
                  dataIndex := Function.update s1.dataIndex slotI index })
    else
      some (index0, { s with pIndex := (index0 + n) % U64MOD, pSize := n })

/-- `ObjectPool::publish(index, n)`: writes `control_[index & mask_].size = n`
and then release-stores `control_[index & mask_].data_index = index`. -/
def publish (s : PoolState) (index : Nat) (n : Nat) : PoolState :=
  let i := Nat.land index s.mask
  { s with slotSize := Function.update s.slotSize i n,
           dataIndex := Function.update s.dataIndex i index }

/-- Outcome of one iteration of the `while (true)` loop in
`ObjectPool::consume`. -/
inductive ConsumeOut where
  | retry (s : PoolState) : ConsumeOut
  | done (p : Ptr) (n : Nat) (s : PoolState) : ConsumeOut

/-- One iteration of the loop body of `ObjectPool::consume`:
reset detection, the empty check, the wrap-skip fast-forward, and the
claim CAS (which always succeeds in the sequential embedding). -/
def consumeStep (s : PoolState) : ConsumeOut :=
  let current_index := s.consumed
  let current := Nat.land current_index s.mask
  let stored_index := s.dataIndex current
  if stored_index ≠ SENTINEL ∧ s.pIndex < stored_index then
    ConsumeOut.retry { s with consumed := 0 }
  else if stored_index = SENTINEL ∨ stored_index < current_index then
    ConsumeOut.done Ptr.null 0 s
  else if stored_index > current_index ∧ Nat.land stored_index s.mask ≠ current then
    ConsumeOut.retry { s with consumed := stored_index }
  else
    ConsumeOut.done (s.freeObjs current) (s.slotSize current)
      { s with consumed := (stored_index + s.slotSize current) % U64MOD }

/-- `ObjectPool::consume()`, with explicit fuel for the retry loop.
`none` means the fuel ran out (the loop did not yet return). -/
def consume (s : PoolState) : Nat → Option ((Ptr × Nat) × PoolState)
  | 0 => none
  | fuel + 1 =>
    match consumeStep s with
    | ConsumeOut.retry s1 => consume s1 fuel
    | ConsumeOut.done p n s1 => some ((p, n), s1)

/-- `ObjectPool::allocate()`: consume from the ring; on `nullptr` fall back
to a fresh heap allocation (`new T()`), modelled as `Ptr.heap heapId` for a
caller-supplied fresh identifier. -/
def allocate (s : PoolState) (fuel : Nat) (heapId : Nat) : Option (Ptr × PoolState) :=
  match consume s fuel with
  | none => none
  | some ((obj, _), s1) =>
    if obj = Ptr.null then some (Ptr.heap heapId, s1) else some (obj, s1)

/-- The ownership test of `ObjectPool::free`:
`lower_bound_ <= (intptr_t)obj && (intptr_t)obj <= upper_bound_`, where
`lower_bound_ = &buffer_[0]` and `upper_bound_ = &buffer_[mask_]`.  The
storage addresses `&buffer_[k]` with `k ≤ mask_` are exactly the addresses
in the inclusive byte range; heap pointers and `nullptr` fall outside it. -/
def inPool (s : PoolState) : Ptr → Bool
  | Ptr.pool k => k ≤ s.mask
  | _ => false

/-- `ObjectPool::free(obj)`: pool-owned pointers are pushed back into the
ring via `reserve` / store / `publish`; any other pointer is `delete`d,
which leaves the pool state unchanged (`delete nullptr` is a no-op). -/
def free (s : PoolState) (obj : Ptr) : Option PoolState :=
  if inPool s obj then
    match reserve s 1 with
    | none => none
    | some (index, s1) =>
      some (publish
        { s1 with freeObjs := Function.update s1.freeObjs (Nat.land index s1.mask) obj }
        index 1)
  else
    some s

/-- The member-initialised state of the constructor body, before the seeding
loop runs: `reserved_ = {0, 0}`, `consumed_ = 0` (value-initialised atomic),
every `control_[i]` fresh (`data_index = UINT64_MAX`, `size = 1`), and
`free_objects_` not yet written (modelled as `Ptr.null`). -/
def mkState (size : Nat) : PoolState :=
  { size := size
    mask := size - 1
    pIndex := 0
    pSize := 0
    consumed := 0
    dataIndex := fun _ => SENTINEL
    slotSize := fun _ => 1
    freeObjs := fun _ => Ptr.null }

/-- The constructor's seeding loop, run for `count` iterations: for each
`i < count`, `index = reserve(); free_objects_[index & mask_] = &buffer_[i];
publish(index)`.  `reserve` cannot throw here because `1 ≤ size_`. -/
def seed (s0 : PoolState) : Nat → PoolState
  | 0 => s0
  | i + 1 =>
    let s := seed s0 i
    match reserve s 1 with
    | none => s
    | some (index, s1) =>
      publish
        { s1 with freeObjs := Function.update s1.freeObjs (Nat.land index s1.mask) (Ptr.pool i) }
        index 1

/-- `ObjectPool::ObjectPool(size)`: the `assert(size && !(size & (size - 1)))`
power-of-two precondition is modelled as a fatal failure (`none`); on success
the constructor seeds all `size` slots. -/
def objectPoolNew (size : Nat) : Option PoolState :=
  if size ≠ 0 ∧ Nat.land size (size - 1) = 0 then
    some (seed (mkState size) size)
  else none

/-- `true` exactly on pool-storage pointers. -/
def isPoolPtr : Ptr → Bool
  | Ptr.pool _ => true
  | _ => false

/-- Number of pool-storage pointers in a list. -/
def poolCount (l : List Ptr) : Nat := (l.filter isPoolPtr).length

/-- The published free-pointer entries currently in the ring: the values
`free_objects_[v & mask_]` for the absolute indices `v` in
`[consumed_, reserved_.index_)`. -/
def ringList (s : PoolState) : List Ptr :=
  (List.range (s.pIndex - s.consumed)).map fun j =>
    s.freeObjs (Nat.land (s.consumed + j) s.mask)

/-- A pool together with the multiset of outstanding `allocate` results and
a counter supplying fresh heap identities. -/
structure Config where
  pool : PoolState
  outst : List Ptr
  nextHeap : Nat

/-- A client operation: one `allocate()` call (with fuel for the consume
loop), or one `free(p)` call on the `j`-th outstanding pointer. -/
inductive Op where
  | alloc (fuel : Nat) : Op
  | free (j : Nat) : Op

/-- Apply one client operation.  `free j` is defined only when `j` indexes
an outstanding pointer, so every freed pointer was previously returned by
`allocate` and not yet freed. -/
def applyOp (c : Config) : Op → Option Config
  | Op.alloc fuel =>
    match allocate c.pool (fuel + 1) c.nextHeap with
    | none => none
    | some (p, s1) =>
      some { pool := s1, outst := c.outst ++ [p], nextHeap := c.nextHeap + 1 }
  | Op.free j =>
    match c.outst.get? j with
    | none => none
    | some p =>
      match free c.pool p with
      | none => none
      | some s1 =>
        some { pool := s1, outst := c.outst.eraseIdx j, nextHeap := c.nextHeap }

/-- Run a sequence of client operations. -/
def runOps : Config → List Op → Option Config
  | c, [] => some c
  | c, op :: ops =>
    match applyOp c op with
    | none => none
    | some c1 => runOps c1 ops

/-- The configuration right after construction: a freshly seeded pool with
no outstanding pointers. -/
def initConfig (size : Nat) : Option Config :=
  match objectPoolNew size with
  | none => none
  | some s => some { pool := s, outst := [], nextHeap := 0 }

/-- Construct a pool and run a sequence of client operations on it. -/
def runFromInit (size : Nat) (ops : List Op) : Option Config :=
  match initConfig size with
  | none => none
  | some c => runOps c ops

/-- All pointers a configuration accounts for: the published ring entries
followed by the outstanding `allocate` results. -/
def accounted (c : Config) : List Ptr := ringList c.pool ++ c.outst

/-- The consumer cursor never passes the producer cursor, read off the
result of a run (vacuous for runs that were not defined). -/
def consumerLeProducer : Option Config → Prop
  | none => True
  | some c => c.pool.consumed ≤ c.pool.pIndex

/-- Every pooled object appears exactly once across the published ring
entries and the outstanding `allocate` results, and no pointer is held by
two outstanding `allocate` calls, read off the result of a run. -/
def exactlyOnce (N : Nat) : Option Config → Prop
  | none => True
  | some c =>
    (∀ K, K < N → (accounted c).count (Ptr.pool K) = 1) ∧ c.outst.Nodup

/-- The contract of one further `allocate()` call on the result of a run:
it succeeds with a non-null pointer; a non-empty ring yields a pointer
inside the storage bounds, an empty ring yields a fresh heap object outside
the storage bounds. -/
def allocateContract (fuel : Nat) : Option Config → Prop
  | none => True
  | some c =>
    ∃ p s1, allocate c.pool (fuel + 1) c.nextHeap = some (p, s1) ∧
      p ≠ Ptr.null ∧
      (c.pool.consumed < c.pool.pIndex → inPool c.pool p = true) ∧
      (c.pool.consumed = c.pool.pIndex →
        p = Ptr.heap c.nextHeap ∧ inPool c.pool p = false)

/-- The inductive invariant tying a reachable configuration together:
well-formed geometry, cursor ordering, the publication discipline of
`control_`, and exactly-once accounting of the pooled objects. -/
structure PoolInv (N : Nat) (c : Config) : Prop where
  hsize : c.pool.size = N
  hmask : c.pool.mask = N - 1
  hpow : ∃ k, k < 32 ∧ N = 2 ^ k
  hCP : c.pool.consumed ≤ c.pool.pIndex
  hcount : c.pool.pIndex + poolCount c.outst = c.pool.consumed + N
  hpub : ∀ v, c.pool.consumed ≤ v → v < c.pool.pIndex →
    c.pool.dataIndex (v % N) = v
  hstale : ∀ i, i < N →
    (∀ v, c.pool.consumed ≤ v → v < c.pool.pIndex → v % N ≠ i) →
    c.pool.dataIndex i < c.pool.consumed
  hslot : ∀ i, c.pool.slotSize i = 1
  honce : ∀ K, K < N → (ringList c.pool ++ c.outst).count (Ptr.pool K) = 1
  hring : ∀ p ∈ ringList c.pool, ∃ K, K < N ∧ p = Ptr.pool K
  hnodup : c.outst.Nodup
  hheap : ∀ h, Ptr.heap h ∈ c.outst → h < c.nextHeap
  hout : ∀ K, Ptr.pool K ∈ c.outst → K < N

/-- A concrete capacity-2 pool state whose slot 0 holds a readable
publication of absolute index 0 (used to witness the consumption
protocol). -/
def sampleReadable : PoolState :=
  { size := 2
    mask := 1
    pIndex := 2
    pSize := 1
    consumed := 0
    dataIndex := fun i => if i = 0 then 0 else 1
    slotSize := fun _ => 1
    freeObjs := fun i => Ptr.pool i }

/-- A concrete capacity-2 pool state whose producer index is mid-ring, so a
width-2 reservation must wrap (used to witness the wrap-skip handshake). -/
def sampleWrap : PoolState :=
  { size := 2
    mask := 1
    pIndex := 1
    pSize := 1
    consumed := 0
    dataIndex := fun _ => SENTINEL
    slotSize := fun _ => 1
    freeObjs := fun _ => Ptr.null }

/-- A concrete capacity-2 pool state whose consumer sits on a wrap-skip
record: slot 1 advertises `data_index = 2`, a different slot (used to
witness the consumer fast-forward). -/
def sampleSkip : PoolState :=
  { size := 2
    mask := 1
    pIndex := 3
    pSize := 1
    consumed := 1
    dataIndex := fun i => if i = 1 then 2 else 0
    slotSize := fun _ => 1
    freeObjs := fun _ => Ptr.null }

/-! ### Bitmask arithmetic -/

theorem land_eq_hand (a b : Nat) : Nat.land a b = a &&& b := rfl

theorem land_mask_eq_mod (x k : Nat) : Nat.land x (2 ^ k - 1) = x % 2 ^ k := by
  apply Nat.eq_of_testBit_eq
  intro i
  rw [land_eq_hand, Nat.testBit_land, Nat.testBit_two_pow_sub_one,
    Nat.testBit_mod_two_pow, Bool.and_comm]

theorem land_pow_two_pred (k : Nat) : Nat.land (2 ^ k) (2 ^ k - 1) = 0 := by
  apply Nat.eq_of_testBit_eq
  intro i
  rw [land_eq_hand, Nat.testBit_land, Nat.testBit_two_pow,
    Nat.testBit_two_pow_sub_one, Nat.zero_testBit]
  by_cases h : k = i
  · subst h; simp
  · simp [h]

theorem pow_two_of_land_pred (n : Nat) :
    n ≠ 0 → Nat.land n (n - 1) = 0 → ∃ k, n = 2 ^ k := by
  induction n using Nat.strong_induction_on with
  | _ n ih =>
    intro h0 h
    match n, h0 with
    | 1, _ => exact ⟨0, rfl⟩
    | (n + 2), _ =>
      rcases Nat.even_or_odd (n + 2) with he | ho
      · obtain ⟨m, hm⟩ := he
        have hmpos : m ≠ 0 := by omega
        have hdiv : (m + m) / 2 = m := by omega
        have hdiv1 : (m + m - 1) / 2 = m - 1 := by omega
        have hland : Nat.land m (m - 1) = 0 := by
          apply Nat.eq_of_testBit_eq
          intro i
          have hb : (Nat.land (m + m) (m + m - 1)).testBit (i + 1) = false := by
            rw [hm] at h; rw [h]; exact Nat.zero_testBit _
          rw [land_eq_hand, Nat.testBit_land] at hb ⊢
          rw [Nat.testBit_succ, Nat.testBit_succ, hdiv, hdiv1] at hb
          rw [hb]; exact (Nat.zero_testBit i).symm
        obtain ⟨k, hk⟩ := ih m (by omega) hmpos hland
        exact ⟨k + 1, by rw [hm, hk]; ring⟩
      · exfalso
        obtain ⟨m, hm⟩ := ho
        have hmpos : m ≠ 0 := by omega
        obtain ⟨i, hi, -⟩ := Nat.exists_most_significant_bit hmpos
        have hdiv : (2 * m + 1) / 2 = m := by omega
        have hdiv1 : (2 * m + 1 - 1) / 2 = m := by omega
        have hb : (Nat.land (n + 2) (n + 2 - 1)).testBit (i + 1) = true := by
          rw [land_eq_hand, Nat.testBit_land, Nat.testBit_succ, Nat.testBit_succ,
            hm, hdiv, hdiv1, hi]
          rfl
        rw [h, Nat.zero_testBit] at hb
        exact Bool.false_ne_true hb

/-! ### Construction (claim C8) -/

/-- **C8.** Constructing a pool with a capacity that is zero or not a power
of two fails fatally (the modelled `assert` yields `none`); for every
positive power-of-two capacity the construction succeeds. -/
theorem construction_pow_two (size : Nat) :
    (objectPoolNew size = none ↔ (size = 0 ∨ ¬ ∃ k, size = 2 ^ k)) ∧
    ((∃ k, size = 2 ^ k) → (objectPoolNew size).isSome = true) := by
  constructor
  · unfold objectPoolNew
    by_cases hz : size = 0
    · subst hz; simp
    · constructor
      · intro hnone
        right
        rintro ⟨k, hk⟩
        subst hk
        rw [if_pos ⟨hz, land_pow_two_pred k⟩] at hnone
        exact Option.noConfusion hnone
      · rintro (h | h)
        · exact absurd h hz
        · rw [if_neg]
          rintro ⟨-, hland⟩
          exact h (pow_two_of_land_pred size hz hland)
  · rintro ⟨k, hk⟩
    subst hk
    unfold objectPoolNew
    have hpos : (2 : Nat) ^ k ≠ 0 := (Nat.pos_pow_of_pos k (by omega)).ne'
    rw [if_pos ⟨hpos, land_pow_two_pred k⟩]
    rfl

/-- Witness for C8: capacity 4 (a power of two) constructs, capacity 3
does not. -/
theorem construction_pow_two_witness :
    (objectPoolNew 4).isSome = true ∧ objectPoolNew 3 = none := by
  constructor
  · exact (construction_pow_two 4).2 ⟨2, rfl⟩
  · refine (construction_pow_two 3).1.mpr (Or.inr ?_)
    rintro ⟨k, hk⟩
    rcases k with - | - | k
    · norm_num at hk
    · norm_num at hk
    · have h4 : 4 ≤ 2 ^ (k + 2) := by
        calc (4 : Nat) = 2 ^ 2 := rfl
        _ ≤ 2 ^ (k + 2) := Nat.pow_le_pow_right (by omega) (by omega)
      omega

/-! ### Basic facts about `reserve` and seeding -/

/-- A width-1 reservation never straddles the end of the ring: it returns
the current producer index and advances it by one. -/
theorem reserve_one (s : PoolState) (k : Nat) (hsize : s.size = 2 ^ k)
    (hmask : s.mask = 2 ^ k - 1) (hb : s.pIndex + 1 < U64MOD) :
    reserve s 1 = some (s.pIndex, { s with pIndex := s.pIndex + 1, pSize := 1 }) := by
  have hpos : 0 < 2 ^ k := Nat.pos_pow_of_pos k (by omega)
  have hidx : Nat.land s.pIndex s.mask = s.pIndex % 2 ^ k := by
    rw [hmask, land_mask_eq_mod]
  have hlt : s.pIndex % 2 ^ k < 2 ^ k := Nat.mod_lt _ hpos
  simp only [reserve, hidx, hsize]
  rw [if_neg (by omega), if_neg (by omega), Nat.mod_eq_of_lt hb]

theorem seed_props (k : Nat) (hk : k < 32) (j : Nat) (hj : j ≤ 2 ^ k) :
    (seed (mkState (2 ^ k)) j).size = 2 ^ k ∧
    (seed (mkState (2 ^ k)) j).mask = 2 ^ k - 1 ∧
    (seed (mkState (2 ^ k)) j).pIndex = j ∧
    (seed (mkState (2 ^ k)) j).consumed = 0 ∧
    (∀ i, i < j → (seed (mkState (2 ^ k)) j).dataIndex i = i) ∧
    (∀ i, j ≤ i → (seed (mkState (2 ^ k)) j).dataIndex i = SENTINEL) ∧
    (∀ i, (seed (mkState (2 ^ k)) j).slotSize i = 1) ∧
    (∀ i, i < j → (seed (mkState (2 ^ k)) j).freeObjs i = Ptr.pool i) := by
  induction j with
  | zero =>
    refine ⟨rfl, rfl, rfl, rfl, ?_, ?_, ?_, ?_⟩ <;> intro i <;> simp [seed, mkState]
  | succ j ih =>
    obtain ⟨hsize, hmask, hpi, hcons, hdlt, hdge, hss, hfo⟩ := ih (by omega)
    have hjlt : j < 2 ^ k := by omega
    have hbig : 2 ^ k < U64MOD := by
      have h2 : (2 : Nat) ^ k < 2 ^ 64 := Nat.pow_lt_pow_right (by omega) (by omega)
      simpa [U64MOD] using h2
    have hres := reserve_one (seed (mkState (2 ^ k)) j) k hsize hmask
      (by rw [hpi]; omega)
    have hlj : Nat.land j (2 ^ k - 1) = j := by
      rw [land_mask_eq_mod, Nat.mod_eq_of_lt hjlt]
    have hstep : seed (mkState (2 ^ k)) (j + 1) =
        { seed (mkState (2 ^ k)) j with
            pIndex := j + 1
            pSize := 1
            freeObjs := Function.update (seed (mkState (2 ^ k)) j).freeObjs j (Ptr.pool j)
            slotSize := Function.update (seed (mkState (2 ^ k)) j).slotSize j 1
            dataIndex := Function.update (seed (mkState (2 ^ k)) j).dataIndex j j } := by
      simp only [seed, hres, publish]
      rw [hpi, hmask, hlj]
    simp only [hstep]
    refine ⟨hsize, hmask, trivial, hcons, ?_, ?_, ?_, ?_⟩
    · intro i hi
      rcases Nat.lt_or_ge i j with h | h
      · rw [Function.update_noteq (by omega), hdlt i h]
      · have hij : i = j := by omega
        subst hij
        rw [Function.update_same]
    · intro i hi
      rw [Function.update_noteq (by omega), hdge i (by omega)]
    · intro i
      by_cases h : i = j
      · subst h
        rw [Function.update_same]
      · rw [Function.update_noteq h, hss i]
    · intro i hi
      rcases Nat.lt_or_ge i j with h | h
      · rw [Function.update_noteq (by omega), hfo i h]
      · have hij : i = j := by omega
        subst hij
        rw [Function.update_same]

/-- **C5.** After construction with a power-of-two capacity `N = 2 ^ k`,
the pool state satisfies `producer.index == N`, `consumer == 0`,
`control[i].data_index == i` for every `i < N`, and `free_ptrs` slot `i`
holds `&storage[i]`. -/
theorem construction_postcondition (k : Nat) (hk : k < 32) (s : PoolState)
    (h : objectPoolNew (2 ^ k) = some s) :
    s.pIndex = 2 ^ k ∧ s.consumed = 0 ∧
    (∀ i, i < 2 ^ k → s.dataIndex i = i ∧ s.freeObjs i = Ptr.pool i) := by
  have hpos : (2 : Nat) ^ k ≠ 0 := (Nat.pos_pow_of_pos k (by omega)).ne'
  unfold objectPoolNew at h
  rw [if_pos ⟨hpos, land_pow_two_pred k⟩] at h
  obtain rfl : seed (mkState (2 ^ k)) (2 ^ k) = s := Option.some.inj h
  obtain ⟨-, -, hpi, hcons, hdlt, -, -, hfo⟩ := seed_props k hk (2 ^ k) le_rfl
  exact ⟨hpi, hcons, fun i hi => ⟨hdlt i hi, hfo i hi⟩⟩

/-- Witness for C5: a capacity-2 pool right after construction has
`producer.index = 2`, `consumer = 0`, and slot 0 publishes absolute
index 0 with `free_ptrs[0] = &storage[0]`. -/
theorem construction_postcondition_witness :
    objectPoolNew (2 ^ 1) = some (seed (mkState (2 ^ 1)) (2 ^ 1)) ∧
    (seed (mkState (2 ^ 1)) (2 ^ 1)).pIndex = 2 ^ 1 ∧
    (seed (mkState (2 ^ 1)) (2 ^ 1)).consumed = 0 ∧
    (seed (mkState (2 ^ 1)) (2 ^ 1)).dataIndex 0 = 0 ∧
    (seed (mkState (2 ^ 1)) (2 ^ 1)).freeObjs 0 = Ptr.pool 0 := by
  have h := construction_postcondition 1 (by omega)
    (seed (mkState (2 ^ 1)) (2 ^ 1)) rfl
  exact ⟨rfl, h.1, h.2.1, (h.2.2 0 (by omega)).1, (h.2.2 0 (by omega)).2⟩

/-! ### The consumption protocol (claim C1) -/

/-- **C1.** One call to `consume` satisfies the spec's case analysis.
With `current = consumed_`, `i = current & mask_`,
`stored = control_[i].data_index`, and the reset-detection branch not
taken: if `stored == UINT64_MAX` or `stored < current`, `consume` returns
`(nullptr, 0)` and leaves the state unchanged; if the slot is readable
(`stored` non-sentinel, `stored ≥ current`, `(stored & mask) == i`), the
claim succeeds, `consume` returns `(free_objects_[current & mask],
control_[i].size)` and advances `consumed_` from `current` to
`stored + control_[i].size`. -/
theorem consume_case_analysis (s : PoolState) (fuel : Nat)
    (hnr : ¬ (s.dataIndex (Nat.land s.consumed s.mask) ≠ SENTINEL ∧
      s.pIndex < s.dataIndex (Nat.land s.consumed s.mask)))
    (hb : s.dataIndex (Nat.land s.consumed s.mask) +
      s.slotSize (Nat.land s.consumed s.mask) < U64MOD) :
    ((s.dataIndex (Nat.land s.consumed s.mask) = SENTINEL ∨
        s.dataIndex (Nat.land s.consumed s.mask) < s.consumed) →
      consume s (fuel + 1) = some ((Ptr.null, 0), s)) ∧
    ((s.dataIndex (Nat.land s.consumed s.mask) ≠ SENTINEL ∧
        s.consumed ≤ s.dataIndex (Nat.land s.consumed s.mask) ∧
        Nat.land (s.dataIndex (Nat.land s.consumed s.mask)) s.mask =
          Nat.land s.consumed s.mask) →
      consume s (fuel + 1) =
        some ((s.freeObjs (Nat.land s.consumed s.mask),
               s.slotSize (Nat.land s.consumed s.mask)),
          { s with consumed := s.dataIndex (Nat.land s.consumed s.mask) +
              s.slotSize (Nat.land s.consumed s.mask) })) := by
  constructor
  · intro hemp
    simp only [consume, consumeStep]
    rw [if_neg hnr, if_pos hemp]
  · rintro ⟨hsent, hge, hslot⟩
    simp only [consume, consumeStep]
    rw [if_neg hnr, if_neg (by push_neg; exact ⟨hsent, by omega⟩),
      if_neg (by rintro ⟨-, hne⟩; exact hne hslot), Nat.mod_eq_of_lt hb]

/-- Witness for C1: in the concrete state `sampleReadable`, slot 0 is
readable with published absolute index 0, and `consume` claims it. -/
theorem consume_case_analysis_witness :
    sampleReadable.dataIndex
      (Nat.land sampleReadable.consumed sampleReadable.mask) ≠ SENTINEL ∧
    consume sampleReadable 1 =
      some ((Ptr.pool 0, 1), { sampleReadable with consumed := 1 }) := by
  refine ⟨by decide, ?_⟩
  exact (consume_case_analysis sampleReadable 0 (by decide) (by decide)).2 (by decide)

/-! ### The wrap-skip handshake (claim C2) -/

theorem add_sub_mod_self (P M : Nat) (hM : 0 < M) : (P + (M - P % M)) % M = 0 := by
  rcases eq_or_ne (P % M) 0 with h | h
  · rw [Nat.add_mod, h, Nat.sub_zero, Nat.mod_self, Nat.add_zero, Nat.zero_mod]
  · have hlt : P % M < M := Nat.mod_lt _ hM
    rw [Nat.add_mod, Nat.mod_eq_of_lt (by omega : M - P % M < M)]
    have hsum : P % M + (M - P % M) = M := by omega
    rw [hsum, Nat.mod_self]

/-- A reservation that would straddle the end of the ring: `reserve` skips
to the next ring start and publishes the wrap-skip record at the pre-skip
slot. -/
theorem reserve_wrap (s : PoolState) (n : Nat)
    (hn : n ≤ s.size)
    (hwrap : Nat.land s.pIndex s.mask + n > s.size)
    (hb : s.pIndex + s.size < U64MOD) :
    reserve s n =
      some (s.pIndex + (s.size - Nat.land s.pIndex s.mask),
        { s with
            pIndex := (s.pIndex + (s.size - Nat.land s.pIndex s.mask) + n) % U64MOD
            pSize := n
            slotSize := Function.update s.slotSize (Nat.land s.pIndex s.mask) n
            dataIndex := Function.update s.dataIndex (Nat.land s.pIndex s.mask)
              (s.pIndex + (s.size - Nat.land s.pIndex s.mask)) }) := by
  have hr : (s.pIndex + (s.size - Nat.land s.pIndex s.mask)) % U64MOD =
      s.pIndex + (s.size - Nat.land s.pIndex s.mask) :=
    Nat.mod_eq_of_lt (by omega)
  simp only [reserve]
  rw [if_neg (by omega), if_pos hwrap, hr]

/-- The index returned by a wrapping reservation is slot-aligned: its low
bits under the mask are zero. -/
theorem land_skip_aligned (s : PoolState) (k : Nat) (hsize : s.size = 2 ^ k)
    (hmask : s.mask = 2 ^ k - 1) :
    Nat.land (s.pIndex + (s.size - Nat.land s.pIndex s.mask)) s.mask = 0 := by
  have hpos : 0 < 2 ^ k := Nat.pos_pow_of_pos k (by omega)
  simp only [hmask, hsize, land_mask_eq_mod]
  exact add_sub_mod_self s.pIndex (2 ^ k) hpos

/-- **C2.** The wrap-skip handshake.  Producer side: when a width-`n`
reservation would straddle the end of the ring (`idx + n > N` for
`idx = index & mask`), `reserve` skips `N - idx` positions — it returns
`index + (N - idx)`, which is slot-aligned (`(returned & mask) + n ≤ N`),
advances the producer to `returned + n`, and publishes a wrap-skip record
at slot `index & mask` with `size = n` and `data_index = returned`.
Consumer side: a consumer that observes a published `stored > current`
with `(stored & mask) ≠ (current & mask)` (and no reset) fast-forwards
`consumed_` from `current` to `stored` and retries. -/
theorem wrap_skip_handshake (s s2 : PoolState) (n k : Nat)
    (hsize : s.size = 2 ^ k) (hmask : s.mask = 2 ^ k - 1)
    (hb : s.pIndex + s.size < U64MOD)
    (hn : n ≤ s.size)
    (hwrap : Nat.land s.pIndex s.mask + n > s.size)
    (hsent2 : s2.dataIndex (Nat.land s2.consumed s2.mask) ≠ SENTINEL)
    (hle2 : s2.dataIndex (Nat.land s2.consumed s2.mask) ≤ s2.pIndex)
    (hgt2 : s2.dataIndex (Nat.land s2.consumed s2.mask) > s2.consumed)
    (hne2 : Nat.land (s2.dataIndex (Nat.land s2.consumed s2.mask)) s2.mask ≠
      Nat.land s2.consumed s2.mask) :
    (∃ s1, reserve s n =
        some (s.pIndex + (s.size - Nat.land s.pIndex s.mask), s1) ∧
      Nat.land (s.pIndex + (s.size - Nat.land s.pIndex s.mask)) s.mask + n ≤
        s.size ∧
      s1.pIndex =
        (s.pIndex + (s.size - Nat.land s.pIndex s.mask) + n) % U64MOD ∧
      s1.dataIndex (Nat.land s.pIndex s.mask) =
        s.pIndex + (s.size - Nat.land s.pIndex s.mask) ∧
      s1.slotSize (Nat.land s.pIndex s.mask) = n) ∧
    consumeStep s2 =
      ConsumeOut.retry
        { s2 with consumed := s2.dataIndex (Nat.land s2.consumed s2.mask) } := by
  have hralign := land_skip_aligned s k hsize hmask
  constructor
  · refine ⟨_, reserve_wrap s n hn hwrap hb, ?_, rfl, ?_, ?_⟩
    · rw [hralign]; omega
    · exact Function.update_same _ _ _
    · exact Function.update_same _ _ _
  · simp only [consumeStep]
    rw [if_neg (by push_neg; intro; omega),
      if_neg (by push_neg; exact ⟨hsent2, by omega⟩), if_pos ⟨hgt2, hne2⟩]

/-- Witness for C2: in `sampleWrap` (capacity 2, producer index 1) a width-2
reservation straddles the ring end, and in `sampleSkip` the consumer at
index 1 observes the wrap-skip record `stored = 2` and fast-forwards. -/
theorem wrap_skip_handshake_witness :
    Nat.land sampleWrap.pIndex sampleWrap.mask + 2 > sampleWrap.size ∧
    sampleSkip.dataIndex (Nat.land sampleSkip.consumed sampleSkip.mask) >
      sampleSkip.consumed ∧
    consumeStep sampleSkip = ConsumeOut.retry { sampleSkip with consumed := 2 } := by
  refine ⟨by decide, by decide, ?_⟩
  exact (wrap_skip_handshake sampleWrap sampleSkip 2 1 rfl rfl (by decide)
    (by decide) (by decide) (by decide) (by decide) (by decide) (by decide)).2

/-! ### Oversized reservations (claim C9) -/

/-- **C9.** `reserve(n)` raises the recoverable domain error
(`std::runtime_error`, modelled as `none`) exactly when `n > size_`; for
every `n ≤ size_` it succeeds and the reserved absolute index `i` satisfies
`(i & mask) + n ≤ size_`, so a reserved range never straddles the ring
end. -/
theorem reserve_domain_error (s : PoolState) (n k : Nat)
    (hsize : s.size = 2 ^ k) (hmask : s.mask = 2 ^ k - 1)
    (hb : s.pIndex + s.size < U64MOD) :
    (reserve s n = none ↔ n > s.size) ∧
    (n ≤ s.size → ∃ i s1, reserve s n = some (i, s1) ∧
      Nat.land i s.mask + n ≤ s.size) := by
  have hsucc : n ≤ s.size → ∃ i s1, reserve s n = some (i, s1) ∧
      Nat.land i s.mask + n ≤ s.size := by
    intro hle
    by_cases hwrap : Nat.land s.pIndex s.mask + n > s.size
    · refine ⟨_, _, reserve_wrap s n hle hwrap hb, ?_⟩
      rw [land_skip_aligned s k hsize hmask]
      omega
    · have hres : reserve s n = some (s.pIndex,
          { s with pIndex := (s.pIndex + n) % U64MOD, pSize := n }) := by
        simp only [reserve]
        rw [if_neg (by omega), if_neg hwrap]
      exact ⟨s.pIndex, _, hres, by omega⟩
  refine ⟨⟨?_, ?_⟩, hsucc⟩
  · intro hnone
    by_contra hgt
    obtain ⟨i, s1, hsome, -⟩ := hsucc (by omega)
    rw [hsome] at hnone
    exact Option.noConfusion hnone
  · intro hgt
    simp only [reserve]
    rw [if_pos hgt]

/-- Witness for C9: on the capacity-2 state `sampleWrap`, a width-3 request
is rejected while a width-1 request succeeds without straddling. -/
theorem reserve_domain_error_witness :
    sampleWrap.pIndex + sampleWrap.size < U64MOD ∧
    (reserve sampleWrap 3 = none ↔ 3 > sampleWrap.size) ∧
    (1 ≤ sampleWrap.size → ∃ i s1, reserve sampleWrap 1 = some (i, s1) ∧
      Nat.land i sampleWrap.mask + 1 ≤ sampleWrap.size) :=
  ⟨by decide, (reserve_domain_error sampleWrap 3 1 rfl rfl (by decide)).1,
    (reserve_domain_error sampleWrap 1 1 rfl rfl (by decide)).2⟩

/-! ### `free` dispatch (claims C4 and C10) -/

/-- The pool-owned branch of `free` as one equation: reserve the producer
index, store the pointer, publish. -/
theorem free_pool_eq (s : PoolState) (p : Ptr) (k : Nat)
    (hsize : s.size = 2 ^ k) (hmask : s.mask = 2 ^ k - 1)
    (hb : s.pIndex + 1 < U64MOD) (hp : inPool s p = true) :
    free s p = some
      { s with
          pIndex := s.pIndex + 1
          pSize := 1
          freeObjs := Function.update s.freeObjs (Nat.land s.pIndex s.mask) p
          slotSize := Function.update s.slotSize (Nat.land s.pIndex s.mask) 1
          dataIndex := Function.update s.dataIndex (Nat.land s.pIndex s.mask)
            s.pIndex } := by
  simp only [free, hp, if_true, reserve_one s k hsize hmask hb, publish]

/-- **C4.** `free(p)` dispatches by the byte-address ownership test.  If
`p` lies inside the storage bounds, it is placed back into the ring via the
reservation-and-publish protocol: `reserve()` returns the producer index,
`p` is written into `free_objects_[index & mask_]`, and `publish(index)`
records `size = 1` and `data_index = index` for slot `index & mask_`
while the producer advances by one.  Otherwise `p` is destroyed via the
heap path and the pool state is untouched. -/
theorem free_dispatch (s : PoolState) (p : Ptr) (k : Nat)
    (hsize : s.size = 2 ^ k) (hmask : s.mask = 2 ^ k - 1)
    (hb : s.pIndex + 1 < U64MOD) :
    (inPool s p = true →
      free s p = some
        { s with
            pIndex := s.pIndex + 1
            pSize := 1
            freeObjs := Function.update s.freeObjs (Nat.land s.pIndex s.mask) p
            slotSize := Function.update s.slotSize (Nat.land s.pIndex s.mask) 1
            dataIndex := Function.update s.dataIndex (Nat.land s.pIndex s.mask)
              s.pIndex }) ∧
    (inPool s p = false → free s p = some s) := by
  constructor
  · intro hp
    exact free_pool_eq s p k hsize hmask hb hp
  · intro hp
    simp only [free, hp, Bool.false_eq_true, if_false]

/-- Witness for C4: freeing the pool-owned pointer `&storage[0]` in the
state `sampleWrap` reserves index 1, stores the pointer in slot 1, and
publishes `data_index = 1` there. -/
theorem free_dispatch_witness :
    inPool sampleWrap (Ptr.pool 0) = true ∧
    free sampleWrap (Ptr.pool 0) = some
      { sampleWrap with
          pIndex := 2
          pSize := 1
          freeObjs := Function.update sampleWrap.freeObjs 1 (Ptr.pool 0)
          slotSize := Function.update sampleWrap.slotSize 1 1
          dataIndex := Function.update sampleWrap.dataIndex 1 1 } :=
  ⟨by decide,
    (free_dispatch sampleWrap (Ptr.pool 0) 1 rfl rfl (by decide)).1 (by decide)⟩

/-- **C10.** `free(nullptr)` is a harmless no-op: the null address fails the
ownership bounds test, so `free` takes the overflow branch and performs
`delete` on the null pointer, leaving every field of the pool unchanged. -/
theorem free_null_noop (s : PoolState) : free s Ptr.null = some s := by
  simp [free, inPool]

/-! ### Reachable configurations: helper lemmas -/

theorem sentinel_lt : SENTINEL < U64MOD := by
  have h : 0 < U64MOD := Nat.pos_pow_of_pos 64 (by omega)
  simp only [SENTINEL, U64MOD] at h ⊢
  omega

theorem mod_ne_of_lt_of_sub_lt (a b M : Nat) (hab : a < b) (h : b - a < M) :
    a % M ≠ b % M := by
  intro hEq
  have hM : 0 < M := by omega
  have hb : b = a + (b - a) := by omega
  rw [hb, Nat.add_mod, Nat.mod_eq_of_lt h] at hEq
  have hx : a % M < M := Nat.mod_lt _ hM
  rcases Nat.lt_or_ge (a % M + (b - a)) M with hc | hc
  · rw [Nat.mod_eq_of_lt hc] at hEq
    omega
  · have h2 : a % M + (b - a) - M < M := by omega
    have h3 : (a % M + (b - a)) % M = a % M + (b - a) - M := by
      rw [Nat.mod_eq_sub_mod hc, Nat.mod_eq_of_lt h2]
    rw [h3] at hEq
    omega

theorem poolCount_append (l1 l2 : List Ptr) :
    poolCount (l1 ++ l2) = poolCount l1 + poolCount l2 := by
  simp [poolCount, List.filter_append]

theorem poolCount_pos_of_mem (l : List Ptr) (K : Nat) (h : Ptr.pool K ∈ l) :
    0 < poolCount l := by
  have hmem : Ptr.pool K ∈ l.filter isPoolPtr := List.mem_filter.mpr ⟨h, rfl⟩
  have hlen := List.length_pos_of_mem hmem
  simpa [poolCount] using hlen

theorem pool_injective : Function.Injective Ptr.pool := by
  intro a b hab
  exact Ptr.pool.inj hab

theorem ringList_cons (s : PoolState) (h : s.consumed < s.pIndex) :
    ringList s = s.freeObjs (Nat.land s.consumed s.mask) ::
      ringList { s with consumed := s.consumed + 1 } := by
  have h1 : s.pIndex - s.consumed = (s.pIndex - (s.consumed + 1)) + 1 := by omega
  show (List.range (s.pIndex - s.consumed)).map
      (fun j => s.freeObjs (Nat.land (s.consumed + j) s.mask)) = _
  rw [h1, List.range_succ_eq_map, List.map_cons, List.map_map]
  congr 1
  · show (List.range (s.pIndex - (s.consumed + 1))).map
        ((fun j => s.freeObjs (Nat.land (s.consumed + j) s.mask)) ∘ Nat.succ) =
      (List.range (s.pIndex - (s.consumed + 1))).map
        (fun j => s.freeObjs (Nat.land (s.consumed + 1 + j) s.mask))
    refine List.map_congr_left fun j _ => ?_
    show s.freeObjs (Nat.land (s.consumed + (j + 1)) s.mask) =
      s.freeObjs (Nat.land (s.consumed + 1 + j) s.mask)
    rw [(by omega : s.consumed + (j + 1) = s.consumed + 1 + j)]

theorem ringList_snoc (s t : PoolState) (p : Ptr) (k : Nat)
    (hmask : s.mask = 2 ^ k - 1)
    (hc : t.consumed = s.consumed) (hp : t.pIndex = s.pIndex + 1)
    (hm : t.mask = s.mask)
    (hf : t.freeObjs = Function.update s.freeObjs (Nat.land s.pIndex s.mask) p)
    (hCP : s.consumed ≤ s.pIndex) (hlt : s.pIndex - s.consumed < 2 ^ k) :
    ringList t = ringList s ++ [p] := by
  unfold ringList
  rw [hc, hp, hm, hf]
  have h1 : s.pIndex + 1 - s.consumed = (s.pIndex - s.consumed) + 1 := by omega
  rw [h1, List.range_succ, List.map_append, List.map_singleton]
  congr 1
  · refine List.map_congr_left fun j hj => ?_
    rw [List.mem_range] at hj
    have hne : Nat.land (s.consumed + j) s.mask ≠ Nat.land s.pIndex s.mask := by
      rw [hmask, land_mask_eq_mod, land_mask_eq_mod]
      exact mod_ne_of_lt_of_sub_lt (s.consumed + j) s.pIndex (2 ^ k)
        (by omega) (by omega)
    exact Function.update_noteq hne _ _
  · rw [Nat.add_sub_cancel' hCP, Function.update_same]

/-- The freshly constructed configuration satisfies the invariant. -/
theorem poolInv_init (k : Nat) (hk : k < 32) (c : Config)
    (h : initConfig (2 ^ k) = some c) :
    PoolInv (2 ^ k) c ∧ c.pool.pIndex = 2 ^ k := by
  have hnew : objectPoolNew (2 ^ k) = some (seed (mkState (2 ^ k)) (2 ^ k)) := by
    unfold objectPoolNew
    rw [if_pos ⟨(Nat.pos_pow_of_pos k (by omega)).ne', land_pow_two_pred k⟩]
  unfold initConfig at h
  rw [hnew] at h
  have hc : c =
      { pool := seed (mkState (2 ^ k)) (2 ^ k), outst := [], nextHeap := 0 } :=
    (Option.some.inj h).symm
  subst hc
  obtain ⟨hsize, hmask, hpi, hcons, hdlt, hdge, hss, hfo⟩ :=
    seed_props k hk (2 ^ k) le_rfl
  have hringeq : ringList (seed (mkState (2 ^ k)) (2 ^ k)) =
      (List.range (2 ^ k)).map Ptr.pool := by
    unfold ringList
    rw [hcons, hpi, hmask]
    simp only [Nat.sub_zero, Nat.zero_add]
    refine List.map_congr_left fun j hj => ?_
    rw [List.mem_range] at hj
    rw [land_mask_eq_mod, Nat.mod_eq_of_lt hj, hfo j hj]
  refine ⟨⟨hsize, hmask, ⟨k, hk, rfl⟩, ?_, ?_, ?_, ?_, hss, ?_, ?_, ?_, ?_, ?_⟩,
    hpi⟩
  · rw [hcons, hpi]
    omega
  · rw [hpi, hcons]
    simp [poolCount]
  · intro v hv1 hv2
    rw [hcons] at hv1
    rw [hpi] at hv2
    rw [Nat.mod_eq_of_lt hv2]
    exact hdlt v hv2
  · intro i hi hstale
    rw [hcons, hpi] at hstale
    exact absurd (Nat.mod_eq_of_lt hi) (hstale i (by omega) hi)
  · intro K hK
    rw [List.append_nil, hringeq,
      List.count_map_of_injective (List.range (2 ^ k)) Ptr.pool pool_injective K]
    exact List.count_eq_one_of_mem (List.nodup_range _) (List.mem_range.mpr hK)
  · intro p hp
    rw [hringeq] at hp
    obtain ⟨j, hj, rfl⟩ := List.mem_map.mp hp
    exact ⟨j, List.mem_range.mp hj, rfl⟩
  · exact List.nodup_nil
  · intro h hmem
    exact absurd hmem (List.not_mem_nil _)
  · intro K hmem
    exact absurd hmem (List.not_mem_nil _)

/-- Under the invariant, with a non-empty ring, the consume loop body
claims slot `consumed % N` in one iteration. -/
theorem consumeStep_claim (N : Nat) (c : Config) (hinv : PoolInv N c)
    (hne : c.pool.consumed < c.pool.pIndex) (hb : c.pool.pIndex < SENTINEL) :
    consumeStep c.pool = ConsumeOut.done
      (c.pool.freeObjs (c.pool.consumed % N)) 1
      { c.pool with consumed := c.pool.consumed + 1 } := by
  obtain ⟨k, hk, hNk⟩ := hinv.hpow
  have hmaskN : c.pool.mask = 2 ^ k - 1 := by rw [hinv.hmask, hNk]
  have hland : Nat.land c.pool.consumed c.pool.mask = c.pool.consumed % N := by
    rw [hmaskN, land_mask_eq_mod, hNk]
  have hstored : c.pool.dataIndex (c.pool.consumed % N) = c.pool.consumed :=
    hinv.hpub c.pool.consumed le_rfl hne
  have hu64 : c.pool.consumed + 1 < U64MOD := by
    have hs := sentinel_lt
    omega
  simp only [consumeStep, hland, hstored]
  rw [if_neg (by rintro ⟨-, h⟩; omega),
    if_neg (by rintro (h | h) <;> omega),
    if_neg (by rintro ⟨h, -⟩; omega),
    hinv.hslot (c.pool.consumed % N), Nat.mod_eq_of_lt hu64]

/-- Under the invariant, with an empty ring, the consume loop body reports
"no more data" in one iteration. -/
theorem consumeStep_empty (N : Nat) (c : Config) (hinv : PoolInv N c)
    (hEq : c.pool.consumed = c.pool.pIndex) :
    consumeStep c.pool = ConsumeOut.done Ptr.null 0 c.pool := by
  obtain ⟨k, hk, hNk⟩ := hinv.hpow
  have hNpos : 0 < N := by
    rw [hNk]
    exact Nat.pos_pow_of_pos k (by omega)
  have hmaskN : c.pool.mask = 2 ^ k - 1 := by rw [hinv.hmask, hNk]
  have hland : Nat.land c.pool.consumed c.pool.mask = c.pool.consumed % N := by
    rw [hmaskN, land_mask_eq_mod, hNk]
  have hstored : c.pool.dataIndex (c.pool.consumed % N) < c.pool.consumed :=
    hinv.hstale (c.pool.consumed % N) (Nat.mod_lt _ hNpos)
      (fun v hv1 hv2 _ => by omega)
  simp only [consumeStep, hland]
  rw [if_neg (by rintro ⟨-, h⟩; omega), if_pos (Or.inr hstored)]

/-- Under the invariant, `consume` returns in a single loop iteration:
the claimed pointer on a non-empty ring, `(nullptr, 0)` on an empty one. -/
theorem consume_one_step (N : Nat) (c : Config) (fuel : Nat)
    (hinv : PoolInv N c) (hb : c.pool.pIndex < SENTINEL) :
    (c.pool.consumed < c.pool.pIndex →
      consume c.pool (fuel + 1) =
        some ((c.pool.freeObjs (c.pool.consumed % N), 1),
          { c.pool with consumed := c.pool.consumed + 1 })) ∧
    (c.pool.consumed = c.pool.pIndex →
      consume c.pool (fuel + 1) = some ((Ptr.null, 0), c.pool)) := by
  constructor
  · intro hne
    simp only [consume, consumeStep_claim N c hinv hne hb]
  · intro hEq
    simp only [consume, consumeStep_empty N c hinv hEq]

/-- One `allocate` client operation always succeeds, returns a non-null
pointer — pool-owned on a non-empty ring, a fresh heap object on an empty
one — and preserves the invariant. -/
theorem alloc_step (N : Nat) (c : Config) (fuel : Nat) (hinv : PoolInv N c)
    (hb : c.pool.pIndex < SENTINEL) :
    ∃ p s1, allocate c.pool (fuel + 1) c.nextHeap = some (p, s1) ∧
      applyOp c (Op.alloc fuel) =
        some { pool := s1, outst := c.outst ++ [p], nextHeap := c.nextHeap + 1 } ∧
      s1.pIndex = c.pool.pIndex ∧
      p ≠ Ptr.null ∧
      (c.pool.consumed < c.pool.pIndex → inPool c.pool p = true) ∧
      (c.pool.consumed = c.pool.pIndex →
        p = Ptr.heap c.nextHeap ∧ inPool c.pool p = false) ∧
      PoolInv N
        { pool := s1, outst := c.outst ++ [p], nextHeap := c.nextHeap + 1 } := by
  obtain ⟨k, hk, hNk⟩ := hinv.hpow
  rcases Nat.lt_or_ge c.pool.consumed c.pool.pIndex with hne | hge
  · -- non-empty ring: the consume claim succeeds
    have hcons := (consume_one_step N c fuel hinv hb).1 hne
    have hland : Nat.land c.pool.consumed c.pool.mask = c.pool.consumed % N := by
      rw [hinv.hmask, hNk, land_mask_eq_mod]
    have hrc := ringList_cons c.pool hne
    rw [hland] at hrc
    have hmem : c.pool.freeObjs (c.pool.consumed % N) ∈ ringList c.pool := by
      rw [hrc]
      exact List.mem_cons_self _ _
    obtain ⟨K0, hK0, hhead⟩ := hinv.hring _ hmem
    rw [hhead] at hcons hrc
    have hpne : (Ptr.pool K0 : Ptr) ≠ Ptr.null := by
      intro hcon
      exact Ptr.noConfusion hcon
    have halloc : allocate c.pool (fuel + 1) c.nextHeap =
        some (Ptr.pool K0, { c.pool with consumed := c.pool.consumed + 1 }) := by
      simp only [allocate, hcons]
      rw [if_neg hpne]
    have hK0notout : Ptr.pool K0 ∉ c.outst := by
      have h1 := hinv.honce K0 hK0
      rw [List.count_append] at h1
      have h2 : 0 < (ringList c.pool).count (Ptr.pool K0) :=
        List.count_pos_iff.mpr (by rw [hrc]; exact List.mem_cons_self _ _)
      exact List.count_eq_zero.mp (by omega)
    refine ⟨Ptr.pool K0, _, halloc, ?_, rfl, hpne, fun _ => ?_, fun hEq => ?_, ?_⟩
    · simp only [applyOp, halloc]
    · have hKm : K0 ≤ c.pool.mask := by
        rw [hinv.hmask]
        omega
      simp [inPool, hKm]
    · omega
    · refine ⟨hinv.hsize, hinv.hmask, ⟨k, hk, hNk⟩, ?_, ?_, ?_, ?_,
        hinv.hslot, ?_, ?_, ?_, ?_, ?_⟩
      · show c.pool.consumed + 1 ≤ c.pool.pIndex
        omega
      · show c.pool.pIndex + poolCount (c.outst ++ [Ptr.pool K0]) =
          c.pool.consumed + 1 + N
        rw [poolCount_append]
        have hpc1 : poolCount [Ptr.pool K0] = 1 := rfl
        have hc0 := hinv.hcount
        omega
      · intro v hv1 hv2
        have hv1a : c.pool.consumed + 1 ≤ v := hv1
        have hv2a : v < c.pool.pIndex := hv2
        show c.pool.dataIndex (v % N) = v
        exact hinv.hpub v (by omega) hv2a
      · intro i hi hst
        have hia : i < N := hi
        have hsta : ∀ v, c.pool.consumed + 1 ≤ v → v < c.pool.pIndex →
            v % N ≠ i := fun v h1 h2 => hst v h1 h2
        show c.pool.dataIndex i < c.pool.consumed + 1
        by_cases hiC : i = c.pool.consumed % N
        · subst hiC
          rw [hinv.hpub c.pool.consumed le_rfl hne]
          omega
        · have hold : c.pool.dataIndex i < c.pool.consumed := by
            refine hinv.hstale i hia fun v hv1 hv2 => ?_
            rcases Nat.eq_or_lt_of_le hv1 with hvC | hvC
            · rw [← hvC]
              exact fun h => hiC h.symm
            · exact hsta v hvC hv2
          omega
      · intro K hK
        have hKa : K < N := hK
        show (ringList { c.pool with consumed := c.pool.consumed + 1 } ++
          (c.outst ++ [Ptr.pool K0])).count (Ptr.pool K) = 1
        have h1 := hinv.honce K hKa
        rw [hrc, List.cons_append, List.count_cons, List.count_append] at h1
        rw [List.count_append, List.count_append, List.count_singleton]
        simp only [] at h1 ⊢
        omega
      · intro p hp
        have hpa : p ∈ ringList { c.pool with consumed := c.pool.consumed + 1 } :=
          hp
        refine hinv.hring p ?_
        rw [hrc]
        exact List.mem_cons_of_mem _ hpa
      · show (c.outst ++ [Ptr.pool K0]).Nodup
        rw [List.nodup_append]
        refine ⟨hinv.hnodup, List.nodup_singleton _, fun a ha ha' => ?_⟩
        rw [List.mem_singleton] at ha'
        subst ha'
        exact hK0notout ha
      · intro h hmemh
        have hmema : Ptr.heap h ∈ c.outst ++ [Ptr.pool K0] := hmemh
        show h < c.nextHeap + 1
        rcases List.mem_append.mp hmema with hl | hr
        · exact lt_trans (hinv.hheap h hl) (by omega)
        · rw [List.mem_singleton] at hr
          exact Ptr.noConfusion hr
      · intro K hmemK
        have hmema : Ptr.pool K ∈ c.outst ++ [Ptr.pool K0] := hmemK
        show K < N
        rcases List.mem_append.mp hmema with hl | hr
        · exact hinv.hout K hl
        · rw [List.mem_singleton] at hr
          rw [Ptr.pool.inj hr]
          exact hK0
  · -- empty ring: heap fallback
    have hEq : c.pool.consumed = c.pool.pIndex := le_antisymm hinv.hCP hge
    have hcons := (consume_one_step N c fuel hinv hb).2 hEq
    have halloc : allocate c.pool (fuel + 1) c.nextHeap =
        some (Ptr.heap c.nextHeap, c.pool) := by
      simp only [allocate, hcons]
      rw [if_pos trivial]
    have hfresh : Ptr.heap c.nextHeap ∉ c.outst := by
      intro hmem
      exact absurd (hinv.hheap _ hmem) (by omega)
    refine ⟨Ptr.heap c.nextHeap, _, halloc, ?_, rfl, fun hcon => Ptr.noConfusion hcon,
      fun hlt => by omega, fun _ => ⟨rfl, rfl⟩, ?_⟩
    · simp only [applyOp, halloc]
    · refine ⟨hinv.hsize, hinv.hmask, ⟨k, hk, hNk⟩, hinv.hCP, ?_, hinv.hpub,
        hinv.hstale, hinv.hslot, ?_, hinv.hring, ?_, ?_, ?_⟩
      · show c.pool.pIndex + poolCount (c.outst ++ [Ptr.heap c.nextHeap]) =
          c.pool.consumed + N
        rw [poolCount_append]
        have hpc0 : poolCount [Ptr.heap c.nextHeap] = 0 := rfl
        have hc0 := hinv.hcount
        omega
      · intro K hK
        have hKa : K < N := hK
        show (ringList c.pool ++
          (c.outst ++ [Ptr.heap c.nextHeap])).count (Ptr.pool K) = 1
        have h1 := hinv.honce K hKa
        have hz : ([Ptr.heap c.nextHeap] : List Ptr).count (Ptr.pool K) = 0 := by
          rw [List.count_singleton, if_neg]
          intro hcon
          rw [beq_iff_eq] at hcon
          exact Ptr.noConfusion hcon
        rw [← List.append_assoc, List.count_append, hz, Nat.add_zero]
        exact h1
      · show (c.outst ++ [Ptr.heap c.nextHeap]).Nodup
        rw [List.nodup_append]
        refine ⟨hinv.hnodup, List.nodup_singleton _, fun a ha ha' => ?_⟩
        rw [List.mem_singleton] at ha'
        subst ha'
        exact hfresh ha
      · intro h hmemh
        have hmema : Ptr.heap h ∈ c.outst ++ [Ptr.heap c.nextHeap] := hmemh
        show h < c.nextHeap + 1
        rcases List.mem_append.mp hmema with hl | hr
        · exact lt_trans (hinv.hheap h hl) (by omega)
        · rw [List.mem_singleton] at hr
          rw [Ptr.heap.inj hr]
          omega
      · intro K hmemK
        have hmema : Ptr.pool K ∈ c.outst ++ [Ptr.heap c.nextHeap] := hmemK
        show K < N
        rcases List.mem_append.mp hmema with hl | hr
        · exact hinv.hout K hl
        · rw [List.mem_singleton] at hr
          exact Ptr.noConfusion hr

theorem eraseIdx_decomp (l : List Ptr) (j : Nat) (p : Ptr)
    (h : l.get? j = some p) :
    l = l.take j ++ p :: l.drop (j + 1) ∧
      l.eraseIdx j = l.take j ++ l.drop (j + 1) := by
  obtain ⟨hlt, hget⟩ := List.get?_eq_some.mp h
  have hg : l.get ⟨j, hlt⟩ = p := hget
  rw [List.get_eq_getElem] at hg
  refine ⟨?_, List.eraseIdx_eq_take_drop_succ l j⟩
  conv_lhs => rw [← List.take_append_drop j l]
  rw [List.drop_eq_getElem_cons hlt, hg]

theorem count_eraseIdx_of_get (l : List Ptr) (j : Nat) (p a : Ptr)
    (h : l.get? j = some p) :
    (l.eraseIdx j).count a + (if (p == a) = true then 1 else 0) = l.count a := by
  obtain ⟨hdec1, hdec2⟩ := eraseIdx_decomp l j p h
  conv_rhs => rw [hdec1]
  rw [hdec2, List.count_append, List.count_append, List.count_cons]
  omega

theorem poolCount_cons (p : Ptr) (l : List Ptr) :
    poolCount (p :: l) = poolCount l + (if isPoolPtr p = true then 1 else 0) := by
  simp only [poolCount, List.filter_cons]
  by_cases hp : isPoolPtr p = true
  · rw [if_pos hp, if_pos hp, List.length_cons]
  · rw [if_neg hp, if_neg hp, Nat.add_zero]

theorem poolCount_eraseIdx_of_get (l : List Ptr) (j : Nat) (p : Ptr)
    (h : l.get? j = some p) :
    poolCount (l.eraseIdx j) + (if isPoolPtr p = true then 1 else 0) =
      poolCount l := by
  obtain ⟨hdec1, hdec2⟩ := eraseIdx_decomp l j p h
  conv_rhs => rw [hdec1]
  rw [hdec2, poolCount_append, poolCount_append, poolCount_cons]
  omega

theorem mem_of_get_opt (l : List Ptr) (j : Nat) (p : Ptr)
    (h : l.get? j = some p) : p ∈ l := by
  obtain ⟨hdec1, -⟩ := eraseIdx_decomp l j p h
  rw [hdec1]
  exact List.mem_append.mpr (Or.inr (List.mem_cons_self _ _))

/-- Freeing an outstanding pointer that is not pool-owned (the overflow
`delete` branch) preserves the invariant. -/
theorem free_other_inv (N : Nat) (s : PoolState) (outst : List Ptr) (nh : Nat)
    (j : Nat) (p : Ptr)
    (hinv : PoolInv N { pool := s, outst := outst, nextHeap := nh })
    (hget : outst.get? j = some p) (hnp : isPoolPtr p = false) :
    PoolInv N { pool := s, outst := outst.eraseIdx j, nextHeap := nh } := by
  have hsub := List.eraseIdx_sublist outst j
  have hcount : s.pIndex + poolCount outst = s.consumed + N := hinv.hcount
  have honce : ∀ K, K < N → (ringList s ++ outst).count (Ptr.pool K) = 1 :=
    hinv.honce
  refine ⟨hinv.hsize, hinv.hmask, hinv.hpow, hinv.hCP, ?_, hinv.hpub,
    hinv.hstale, hinv.hslot, ?_, hinv.hring, ?_, ?_, ?_⟩
  · show s.pIndex + poolCount (outst.eraseIdx j) = s.consumed + N
    have h2 := poolCount_eraseIdx_of_get outst j p hget
    rw [hnp] at h2
    simp only [Bool.false_eq_true, if_false, Nat.add_zero] at h2
    omega
  · intro K hK
    have hKa : K < N := hK
    show (ringList s ++ outst.eraseIdx j).count (Ptr.pool K) = 1
    have h1 := honce K hKa
    have h2 := count_eraseIdx_of_get outst j p (Ptr.pool K) hget
    have hb0 : (p == Ptr.pool K) = false := by
      rw [beq_eq_false_iff_ne]
      intro hcon
      rw [hcon] at hnp
      exact Bool.noConfusion hnp
    rw [hb0] at h2
    simp only [Bool.false_eq_true, if_false, Nat.add_zero] at h2
    rw [List.count_append] at h1 ⊢
    omega
  · show (outst.eraseIdx j).Nodup
    exact hsub.nodup hinv.hnodup
  · intro h hmemh
    have hmema : Ptr.heap h ∈ outst.eraseIdx j := hmemh
    show h < nh
    exact hinv.hheap h (hsub.subset hmema)
  · intro K hmemK
    have hmema : Ptr.pool K ∈ outst.eraseIdx j := hmemK
    show K < N
    exact hinv.hout K (hsub.subset hmema)

/-- Freeing an outstanding pool-owned pointer (the ring branch:
reserve, store, publish) preserves the invariant. -/
theorem free_pool_inv (N k : Nat) (s : PoolState) (outst : List Ptr)
    (nh : Nat) (j K : Nat)
    (hinv : PoolInv N { pool := s, outst := outst, nextHeap := nh })
    (hNk : N = 2 ^ k)
    (hget : outst.get? j = some (Ptr.pool K)) :
    PoolInv N
      { pool :=
          { s with
              pIndex := s.pIndex + 1
              pSize := 1
              freeObjs := Function.update s.freeObjs
                (Nat.land s.pIndex s.mask) (Ptr.pool K)
              slotSize := Function.update s.slotSize
                (Nat.land s.pIndex s.mask) 1
              dataIndex := Function.update s.dataIndex
                (Nat.land s.pIndex s.mask) s.pIndex }
        outst := outst.eraseIdx j
        nextHeap := nh } := by
  have hsub := List.eraseIdx_sublist outst j
  have hmem : Ptr.pool K ∈ outst := mem_of_get_opt outst j _ hget
  have hKN : K < N := hinv.hout K hmem
  have hmask : s.mask = N - 1 := hinv.hmask
  have hmask2 : s.mask = 2 ^ k - 1 := by rw [hmask, hNk]
  have hcount : s.pIndex + poolCount outst = s.consumed + N := hinv.hcount
  have hCP : s.consumed ≤ s.pIndex := hinv.hCP
  have hpcpos : 0 < poolCount outst := poolCount_pos_of_mem outst K hmem
  have hNpos : 0 < N := by
    rw [hNk]
    exact Nat.pos_pow_of_pos k (by omega)
  have hPC : s.pIndex - s.consumed < N := by omega
  have hlandP : Nat.land s.pIndex s.mask = s.pIndex % N := by
    rw [hmask2, land_mask_eq_mod, hNk]
  have hpc2 : poolCount (outst.eraseIdx j) + 1 = poolCount outst := by
    have h2 := poolCount_eraseIdx_of_get outst j _ hget
    simpa using h2
  have hpubS : ∀ v, s.consumed ≤ v → v < s.pIndex → s.dataIndex (v % N) = v :=
    hinv.hpub
  have hstaleS : ∀ i, i < N →
      (∀ v, s.consumed ≤ v → v < s.pIndex → v % N ≠ i) →
      s.dataIndex i < s.consumed := hinv.hstale
  have hslotS : ∀ i, s.slotSize i = 1 := hinv.hslot
  have hringS : ∀ p ∈ ringList s, ∃ K', K' < N ∧ p = Ptr.pool K' := hinv.hring
  have hnodupS : outst.Nodup := hinv.hnodup
  have hheapS : ∀ h, Ptr.heap h ∈ outst → h < nh := hinv.hheap
  have hsnoc : ringList
      { s with
          pIndex := s.pIndex + 1
          pSize := 1
          freeObjs := Function.update s.freeObjs
            (Nat.land s.pIndex s.mask) (Ptr.pool K)
          slotSize := Function.update s.slotSize
            (Nat.land s.pIndex s.mask) 1
          dataIndex := Function.update s.dataIndex
            (Nat.land s.pIndex s.mask) s.pIndex } =
      ringList s ++ [Ptr.pool K] :=
    ringList_snoc s _ (Ptr.pool K) k hmask2 rfl rfl rfl rfl hCP (by omega)
  refine ⟨hinv.hsize, hinv.hmask, hinv.hpow, ?_, ?_, ?_, ?_, ?_, ?_, ?_,
    ?_, ?_, ?_⟩
  · show s.consumed ≤ s.pIndex + 1
    omega
  · show s.pIndex + 1 + poolCount (outst.eraseIdx j) = s.consumed + N
    omega
  · intro v hv1 hv2
    have hv1a : s.consumed ≤ v := hv1
    have hv2a : v < s.pIndex + 1 := hv2
    show Function.update s.dataIndex (Nat.land s.pIndex s.mask) s.pIndex
      (v % N) = v
    by_cases hvP : v = s.pIndex
    · subst hvP
      rw [hlandP]
      exact Function.update_same _ _ _
    · have hne : v % N ≠ s.pIndex % N :=
        mod_ne_of_lt_of_sub_lt v s.pIndex N (by omega) (by omega)
      rw [hlandP, Function.update_noteq hne]
      exact hpubS v hv1a (by omega)
  · intro i hi hst
    have hia : i < N := hi
    have hsta : ∀ v, s.consumed ≤ v → v < s.pIndex + 1 → v % N ≠ i :=
      fun v h1 h2 => hst v h1 h2
    show Function.update s.dataIndex (Nat.land s.pIndex s.mask) s.pIndex i <
      s.consumed
    have hiP : s.pIndex % N ≠ i := hsta s.pIndex (by omega) (by omega)
    rw [hlandP, Function.update_noteq fun hcon => hiP hcon.symm]
    exact hstaleS i hia fun v h1 h2 => hsta v h1 (by omega)
  · intro i
    show Function.update s.slotSize (Nat.land s.pIndex s.mask) 1 i = 1
    by_cases hik : i = Nat.land s.pIndex s.mask
    · subst hik
      exact Function.update_same _ _ _
    · rw [Function.update_noteq hik]
      exact hslotS i
  · intro K' hK'
    have hK'a : K' < N := hK'
    have h1 : (ringList s ++ outst).count (Ptr.pool K') = 1 :=
      hinv.honce K' hK'a
    have h2 := count_eraseIdx_of_get outst j (Ptr.pool K) (Ptr.pool K') hget
    show (ringList
      { s with
          pIndex := s.pIndex + 1
          pSize := 1
          freeObjs := Function.update s.freeObjs
            (Nat.land s.pIndex s.mask) (Ptr.pool K)
          slotSize := Function.update s.slotSize
            (Nat.land s.pIndex s.mask) 1
          dataIndex := Function.update s.dataIndex
            (Nat.land s.pIndex s.mask) s.pIndex } ++
      outst.eraseIdx j).count (Ptr.pool K') = 1
    rw [hsnoc, List.count_append, List.count_append, List.count_singleton]
    rw [List.count_append] at h1
    by_cases hKK : K = K'
    · subst hKK
      have hbt : ((Ptr.pool K : Ptr) == Ptr.pool K) = true := by
        rw [beq_iff_eq]
      rw [hbt] at h2
      rw [hbt]
      rw [if_pos rfl] at h2 ⊢
      have hout1 : 0 < outst.count (Ptr.pool K) := List.count_pos_iff.mpr hmem
      omega
    · have hbf : ((Ptr.pool K : Ptr) == Ptr.pool K') = false := by
        rw [beq_eq_false_iff_ne]
        intro hcon
        exact hKK (Ptr.pool.inj hcon)
      rw [hbf] at h2
      rw [hbf]
      rw [if_neg Bool.false_ne_true] at h2 ⊢
      omega
  · intro p hp
    have hpa : p ∈ ringList s ++ [Ptr.pool K] := hsnoc ▸ hp
    rcases List.mem_append.mp hpa with hl | hr
    · exact hringS p hl
    · rw [List.mem_singleton] at hr
      exact ⟨K, hKN, hr⟩
  · show (outst.eraseIdx j).Nodup
    exact hsub.nodup hnodupS
  · intro h hmemh
    have hmema : Ptr.heap h ∈ outst.eraseIdx j := hmemh
    show h < nh
    exact hheapS h (hsub.subset hmema)
  · intro K' hmemK
    have hmema : Ptr.pool K' ∈ outst.eraseIdx j := hmemK
    show K' < N
    exact hinv.hout K' (hsub.subset hmema)

/-- One `free` client operation preserves the invariant; the producer
advances by at most one and the heap counter is unchanged. -/
theorem free_step (N : Nat) (c c2 : Config) (j : Nat)
    (hinv : PoolInv N c) (hb : c.pool.pIndex + 1 < U64MOD)
    (h : applyOp c (Op.free j) = some c2) :
    PoolInv N c2 ∧ c2.pool.pIndex ≤ c.pool.pIndex + 1 ∧
      c2.nextHeap = c.nextHeap := by
  obtain ⟨s, outst, nh⟩ := c
  obtain ⟨k, hk, hNk⟩ := hinv.hpow
  have hsize : s.size = N := hinv.hsize
  have hmask : s.mask = N - 1 := hinv.hmask
  have hbs : s.pIndex + 1 < U64MOD := hb
  have hNpos : 0 < N := by
    rw [hNk]
    exact Nat.pos_pow_of_pos k (by omega)
  simp only [applyOp] at h
  cases hget : outst.get? j with
  | none =>
    rw [hget] at h
    exact Option.noConfusion h
  | some p =>
    rw [hget] at h
    simp only [] at h
    cases p with
    | null =>
      have hfr : free s Ptr.null = some s := by
        simp [free, inPool]
      rw [hfr] at h
      simp only [Option.some.injEq] at h
      obtain rfl := h
      refine ⟨free_other_inv N s outst nh j Ptr.null hinv hget rfl, ?_, rfl⟩
      show s.pIndex ≤ s.pIndex + 1
      omega
    | heap hh =>
      have hfr : free s (Ptr.heap hh) = some s := by
        simp [free, inPool]
      rw [hfr] at h
      simp only [Option.some.injEq] at h
      obtain rfl := h
      refine ⟨free_other_inv N s outst nh j (Ptr.heap hh) hinv hget rfl, ?_, rfl⟩
      show s.pIndex ≤ s.pIndex + 1
      omega
    | pool K =>
      have hKN : K < N := hinv.hout K (mem_of_get_opt outst j _ hget)
      have hin : inPool s (Ptr.pool K) = true := by
        simp only [inPool, hmask, decide_eq_true_eq]
        omega
      have hsize2 : s.size = 2 ^ k := by rw [hsize, hNk]
      have hmask2 : s.mask = 2 ^ k - 1 := by rw [hmask, hNk]
      have hfr := free_pool_eq s (Ptr.pool K) k hsize2 hmask2 hbs hin
      rw [hfr] at h
      simp only [Option.some.injEq] at h
      obtain rfl := h
      refine ⟨free_pool_inv N k s outst nh j K hinv hNk hget, ?_, rfl⟩
      show s.pIndex + 1 ≤ s.pIndex + 1
      exact le_rfl

/-- Running any sequence of client operations from an invariant-satisfying
configuration preserves the invariant; the producer advances by at most the
number of operations. -/
theorem runOps_inv (N : Nat) (ops : List Op) :
    ∀ c c2 : Config, PoolInv N c →
    c.pool.pIndex + ops.length + 1 < SENTINEL →
    runOps c ops = some c2 →
    PoolInv N c2 ∧ c2.pool.pIndex ≤ c.pool.pIndex + ops.length := by
  induction ops with
  | nil =>
    intro c c2 hinv hbound h
    simp only [runOps] at h
    obtain rfl := Option.some.inj h
    exact ⟨hinv, Nat.le_refl _⟩
  | cons op ops ih =>
    intro c c2 hinv hbound h
    simp only [List.length_cons] at hbound ⊢
    simp only [runOps] at h
    cases op with
    | alloc fuel =>
      obtain ⟨p, s1, halloc, happly, hpidx, -, -, -, hinv1⟩ :=
        alloc_step N c fuel hinv (by omega)
      rw [happly] at h
      simp only [] at h
      obtain ⟨hinv2, hle⟩ := ih _ c2 hinv1
        (by show s1.pIndex + ops.length + 1 < SENTINEL; omega) h
      have hle2 : c2.pool.pIndex ≤ s1.pIndex + ops.length := hle
      exact ⟨hinv2, by omega⟩
    | free j =>
      cases happ : applyOp c (Op.free j) with
      | none =>
        rw [happ] at h
        simp only [] at h
        exact Option.noConfusion h
      | some c1 =>
        rw [happ] at h
        simp only [] at h
        have hsl := sentinel_lt
        obtain ⟨hinv1, hle1, -⟩ := free_step N c c1 j hinv (by omega) happ
        obtain ⟨hinv2, hle⟩ := ih c1 c2 hinv1 (by omega) h
        exact ⟨hinv2, by omega⟩

/-! ### Claims C3, C6, C7: properties of every reachable configuration -/

/-- **C6.** From the post-construction state, every sequence of `allocate`
and `free` operations (the latter on previously returned, not yet freed
pointers) keeps `consumed_ ≤ reserved_.index_`: the consumer cursor never
overtakes the producer reservation cursor. -/
theorem consumer_never_passes_producer (k : Nat) (ops : List Op)
    (hk : k < 32) (hlen : ops.length ≤ 2 ^ 62) :
    consumerLeProducer (runFromInit (2 ^ k) ops) := by
  have h2k : (2 : Nat) ^ k ≤ 2 ^ 31 := Nat.pow_le_pow_right (by omega) (by omega)
  have hcmp : (2 : Nat) ^ 31 + 2 ^ 62 + 1 < SENTINEL := by decide
  unfold runFromInit
  cases hinit : initConfig (2 ^ k) with
  | none => exact True.intro
  | some c0 =>
    simp only []
    cases hrun : runOps c0 ops with
    | none => exact True.intro
    | some c2 =>
      show c2.pool.consumed ≤ c2.pool.pIndex
      obtain ⟨hinv0, hp0⟩ := poolInv_init k hk c0 hinit
      obtain ⟨hinv2, -⟩ := runOps_inv (2 ^ k) ops c0 c2 hinv0
        (by rw [hp0]; omega) hrun
      exact hinv2.hCP

/-- Witness for C6: a run of one `allocate` and one `free` on a capacity-2
pool leaves the consumer cursor at or below the producer cursor. -/
theorem consumer_never_passes_producer_witness :
    ([Op.alloc 0, Op.free 0].length ≤ 2 ^ 62) ∧
    consumerLeProducer (runFromInit (2 ^ 1) [Op.alloc 0, Op.free 0]) :=
  ⟨by decide, consumer_never_passes_producer 1 [Op.alloc 0, Op.free 0]
    (by omega) (by decide)⟩

/-- **C7.** From the post-construction state, under any sequence of
`allocate` calls and `free` calls on previously returned, not yet freed
pointers, every pooled object `&storage[K]` appears exactly once across the
published ring entries and the outstanding `allocate` results combined, and
no address is outstanding twice. -/
theorem pooled_exactly_once (k : Nat) (ops : List Op)
    (hk : k < 32) (hlen : ops.length ≤ 2 ^ 62) :
    exactlyOnce (2 ^ k) (runFromInit (2 ^ k) ops) := by
  have h2k : (2 : Nat) ^ k ≤ 2 ^ 31 := Nat.pow_le_pow_right (by omega) (by omega)
  have hcmp : (2 : Nat) ^ 31 + 2 ^ 62 + 1 < SENTINEL := by decide
  unfold runFromInit
  cases hinit : initConfig (2 ^ k) with
  | none => exact True.intro
  | some c0 =>
    simp only []
    cases hrun : runOps c0 ops with
    | none => exact True.intro
    | some c2 =>
      show (∀ K, K < 2 ^ k → (accounted c2).count (Ptr.pool K) = 1) ∧
        c2.outst.Nodup
      obtain ⟨hinv0, hp0⟩ := poolInv_init k hk c0 hinit
      obtain ⟨hinv2, -⟩ := runOps_inv (2 ^ k) ops c0 c2 hinv0
        (by rw [hp0]; omega) hrun
      exact ⟨hinv2.honce, hinv2.hnodup⟩

/-- Witness for C7: after one `allocate` on a capacity-2 pool, each of the
two pooled objects is accounted exactly once. -/
theorem pooled_exactly_once_witness :
    ([Op.alloc 0].length ≤ 2 ^ 62) ∧
    exactlyOnce (2 ^ 1) (runFromInit (2 ^ 1) [Op.alloc 0]) :=
  ⟨by decide, pooled_exactly_once 1 [Op.alloc 0] (by omega) (by decide)⟩

/-- **C3.** On every reachable pool state, `allocate()` returns a non-null
pointer: if the ring yields a pointer it lies inside the storage bounds
`[lo, hi]`; if the ring is empty a fresh heap `T` is returned, outside
`[lo, hi]`.  Exhaustion is never surfaced as an error. -/
theorem allocate_contract_holds (k : Nat) (ops : List Op) (fuel : Nat)
    (hk : k < 32) (hlen : ops.length ≤ 2 ^ 62) :
    allocateContract fuel (runFromInit (2 ^ k) ops) := by
  have h2k : (2 : Nat) ^ k ≤ 2 ^ 31 := Nat.pow_le_pow_right (by omega) (by omega)
  have hcmp : (2 : Nat) ^ 31 + 2 ^ 62 + 1 < SENTINEL := by decide
  unfold runFromInit
  cases hinit : initConfig (2 ^ k) with
  | none => exact True.intro
  | some c0 =>
    simp only []
    cases hrun : runOps c0 ops with
    | none => exact True.intro
    | some c2 =>
      obtain ⟨hinv0, hp0⟩ := poolInv_init k hk c0 hinit
      obtain ⟨hinv2, hle⟩ := runOps_inv (2 ^ k) ops c0 c2 hinv0
        (by rw [hp0]; omega) hrun
      obtain ⟨p, s1, halloc, -, -, hpnn, hpin, hpheap, -⟩ :=
        alloc_step (2 ^ k) c2 fuel hinv2 (by rw [hp0] at hle; omega)
      exact ⟨p, s1, halloc, hpnn, hpin, hpheap⟩

/-- Witness for C3: allocating from a freshly constructed capacity-2 pool
yields a non-null pool pointer; allocating twice more exhausts the ring and
the third `allocate` yields a heap pointer. -/
theorem allocate_contract_holds_witness :
    (([] : List Op).length ≤ 2 ^ 62) ∧
    allocateContract 0 (runFromInit (2 ^ 1) []) ∧
    allocateContract 0 (runFromInit (2 ^ 1) [Op.alloc 0, Op.alloc 0]) :=
  ⟨by decide, allocate_contract_holds 1 [] 0 (by omega) (by decide),
    allocate_contract_holds 1 [Op.alloc 0, Op.alloc 0] 0 (by omega) (by decide)⟩

end SlickPool
